import Mathlib

/-!
Verification of the wordle repository (src/lib.rs): a shallow embedding of
the correctness engine (`Correctness::compute`) and of the game loop
(`Wordle::play`), followed by theorems about them.

Words are modelled as `List Char` (the engine treats characters as opaque
comparable units; lengths count characters).  Rust panics (the `assert!`
calls) are modelled as `Option`/`Except` error results.  The Rust solver
trait `Guesser` (`fn guess(&mut self, history: &[Guess]) -> String`) is
modelled as a state-threading step function `σ → List Guess → List Char × σ`.
-/

/-- Per-position feedback, from `enum Correctness` in src/lib.rs. -/
inductive Correctness where
  | Correct
  | Misplaced
  | Wrong
deriving DecidableEq

namespace Correctness

/-- Pass 1 of `Correctness::compute` (src/lib.rs): positionwise scan of
`answer.chars().zip(guess.chars())`, marking `Correct` where the characters
agree and leaving the initial `Wrong` elsewhere. -/
def pass1 (answer guess : List Char) : List Correctness :=
  List.zipWith (fun a g => if a = g then Correctness.Correct else Correctness.Wrong) answer guess

/-- The `used` array built after pass 1 in `Correctness::compute`:
`used[i]` is set exactly when `c[i] == Correctness::Correct`. -/
def usedOf (c : List Correctness) : List Bool :=
  c.map (fun x => decide (x = Correctness.Correct))

/-- The side-effecting `any` closure of pass 2 in `Correctness::compute`,
scanning `answer.chars().enumerate()` left to right: it consumes (flags) the
first position of `au` that holds character `g` with an unset flag and
returns the updated list, or `none` when every occurrence of `g` is already
consumed.  `au` pairs each answer character with its `used` flag. -/
def consume (g : Char) : List (Char × Bool) → Option (List (Char × Bool))
  | [] => none
  | (a, u) :: rest =>
    if a = g ∧ u = false then some ((a, true) :: rest)
    else Option.map (fun r => (a, u) :: r) (consume g rest)

/-- Pass 2 of `Correctness::compute`: walk the guess characters and the
mask from pass 1 left to right; positions already `Correct` are kept,
otherwise a successful `consume` marks the position `Misplaced` and a
failed one leaves it `Wrong`. -/
def pass2 (guess : List Char) (c : List Correctness) (au : List (Char × Bool)) : List Correctness :=
  match guess, c with
  | [], _ => []
  | _ :: _, [] => []
  | g :: gs, ci :: cs =>
    if ci = Correctness.Correct then ci :: pass2 gs cs au
    else
      match consume g au with
      | some au2 => Correctness.Misplaced :: pass2 gs cs au2
      | none => Correctness.Wrong :: pass2 gs cs au

/-- Body of `Correctness::compute` after its two length asserts. -/
def computeMask (answer guess : List Char) : List Correctness :=
  let c := pass1 answer guess
  pass2 guess c (answer.zip (usedOf c))

/-- `Correctness::compute` (src/lib.rs): the two `assert_eq!(len, 5)`
precondition checks are modelled as returning `none` (a panic); on
5-character inputs the two-pass mask is returned. -/
def compute (answer guess : List Char) : Option (List Correctness) :=
  if answer.length = 5 ∧ guess.length = 5 then some (computeMask answer guess) else none

/-- Characters of `au` whose consumed flag is still unset, in order. -/
def unconsumed (au : List (Char × Bool)) : List Char :=
  (au.filter (fun p => !p.2)).map Prod.fst

end Correctness

/-- History entry, from `struct Guess` in src/lib.rs. -/
structure Guess where
  word : List Char
  mask : List Correctness
deriving DecidableEq

/-- The panics `Wordle::play` can hit: the dictionary `assert!` and the
length asserts inside `Correctness::compute`. -/
inductive PlayErr where
  | notInDict (w : List Char)
  | badLength
deriving DecidableEq

/-- Outcome of the loop of `Wordle::play`, instrumented with the final
history and the number of solver invocations performed (both are local to
the Rust function; exposing them lets theorems speak about the history and
the invocation count without changing the computed result). -/
structure LoopOut where
  result : Except PlayErr (Option Nat)
  hist : List Guess
  calls : Nat

/-- The `for i in 0..6` loop of `Wordle::play` (src/lib.rs), as a
fuel-indexed recursion; `i` is the current round index and `h` the history
so far.  Each round: invoke the solver, return `Some(i+1)` on an exact
match, then assert dictionary membership, then compute the mask and push
the history entry.  `Guesser::guess(&mut self, ...)` is the state-threading
`step`. -/
def playLoop {σ : Type} (dict : List (List Char)) (answer : List Char)
    (step : σ → List Guess → List Char × σ) :
    Nat → Nat → σ → List Guess → LoopOut
  | 0, _, _, h => ⟨Except.ok none, h, 0⟩
  | fuel + 1, i, s, h =>
    let g := step s h
    if g.1 = answer then ⟨Except.ok (some (i + 1)), h, 1⟩
    else if g.1 ∈ dict then
      match Correctness.compute answer g.1 with
      | some mask =>
        let r := playLoop dict answer step fuel (i + 1) g.2 (h ++ [⟨g.1, mask⟩])
        ⟨r.result, r.hist, r.calls + 1⟩
      | none => ⟨Except.error PlayErr.badLength, h, 1⟩
    else ⟨Except.error (PlayErr.notInDict g.1), h, 1⟩

/-- `struct Wordle` (src/lib.rs): holds the dictionary set, modelled as a
list of words with membership lookup. -/
structure Wordle where
  dictionary : List (List Char)

/-- `Wordle::play` (src/lib.rs): run the 6-round loop from an empty
history; panics surface as `Except.error`. -/
def Wordle.play {σ : Type} (w : Wordle) (answer : List Char)
    (step : σ → List Guess → List Char × σ) (s0 : σ) : Except PlayErr (Option Nat) :=
  (playLoop w.dictionary answer step 6 0 s0 []).result

/-- Proof device: the (solver state, history) pair at the start of round
`j` of `Wordle::play`, assuming every earlier round reached its
`history.push` (each entry's mask is the one `Correctness::compute` yields
on 5-character inputs). -/
def playTrace {σ : Type} (answer : List Char) (step : σ → List Guess → List Char × σ)
    (s0 : σ) : Nat → σ × List Guess
  | 0 => (s0, [])
  | j + 1 =>
    let p := playTrace answer step s0 j
    let g := step p.1 p.2
    (g.2, p.2 ++ [⟨g.1, Correctness.computeMask answer g.1⟩])

/-- A well-formed history entry of a game with the given answer: its mask is
exactly what `Correctness::compute` returns on its word, and its word is not
the answer. -/
def EntryWF (answer : List Char) (e : Guess) : Prop :=
  Correctness.compute answer e.word = some e.mask ∧ e.word ≠ answer

/-- Every entry of the history is well-formed. -/
def HistWF (answer : List Char) (h : List Guess) : Prop :=
  ∀ e ∈ h, EntryWF answer e

/-- `h2` extends `h` by appending at the end only. -/
def AppendOnly (h h2 : List Guess) : Prop :=
  ∃ t, h2 = h ++ t

/-- Test word "right" (from the repository's own test suite). -/
def wordRight : List Char := ['r', 'i', 'g', 'h', 't']

/-- Test word "wrong" (from the repository's own test suite). -/
def wordWrong : List Char := ['w', 'r', 'o', 'n', 'g']

/-- Test word "zzzzz": a 5-character word kept out of the test dictionaries. -/
def wordZ : List Char := ['z', 'z', 'z', 'z', 'z']

/-- A solver that always answers `w`, regardless of history or state. -/
def solverConst (w : List Char) : Unit → List Guess → List Char × Unit :=
  fun _ _ => (w, ())

/-- A solver that answers `w1` on its first invocation (empty history) and
`w2` afterwards. -/
def solverSecond (w1 w2 : List Char) : Unit → List Guess → List Char × Unit :=
  fun _ h => (if h.length = 0 then w1 else w2, ())

/-- A solver that answers `w` while the history has fewer than 6 entries and
`wordZ` afterwards; it agrees with `solverConst w` on every history a game
can actually show a solver. -/
def solverCapped (w : List Char) : Unit → List Guess → List Char × Unit :=
  fun _ h => (if h.length < 6 then w else wordZ, ())

/-- Measure: how many positions of `gs` hold character `ch` and are marked
`Correct` or `Misplaced` in the mask `ms`. -/
def Correctness.cmCount (ch : Char) (gs : List Char) (ms : List Correctness) : Nat :=
  ((gs.zip ms).filter
    (fun p => decide (p.1 = ch ∧ (p.2 = Correctness.Correct ∨ p.2 = Correctness.Misplaced)))).length

/-- Measure: how many positions of `gs` hold character `ch` and are already
marked `Correct` in the mask `cs`. -/
def Correctness.baseCount (ch : Char) (gs : List Char) (cs : List Correctness) : Nat :=
  ((gs.zip cs).filter (fun p => decide (p.1 = ch ∧ p.2 = Correctness.Correct))).length

/-- Measure: how many unconsumed positions of `au` hold character `ch`. -/
def Correctness.freeCount (ch : Char) (au : List (Char × Bool)) : Nat :=
  (au.filter (fun p => decide (p.1 = ch) && !p.2)).length

/-! ## Length facts about the engine -/

theorem Correctness.pass1_length (answer guess : List Char) :
    (Correctness.pass1 answer guess).length = min answer.length guess.length := by
  simp [Correctness.pass1]

theorem Correctness.pass2_length :
    ∀ (gs : List Char) (cs : List Correctness) (au : List (Char × Bool)),
      (Correctness.pass2 gs cs au).length = min gs.length cs.length
  | [], cs, au => by simp [Correctness.pass2]
  | _ :: _, [], au => by simp [Correctness.pass2]
  | g :: gs, c :: cs, au => by
    simp only [Correctness.pass2, List.length_cons]
    split
    · simp [Correctness.pass2_length gs cs au, Nat.succ_min_succ]
    · cases hc : Correctness.consume g au with
      | some au2 => simp [Correctness.pass2_length gs cs au2, Nat.succ_min_succ]
      | none => simp [Correctness.pass2_length gs cs au, Nat.succ_min_succ]

theorem Correctness.computeMask_length (answer guess : List Char)
    (ha : answer.length = 5) (hg : guess.length = 5) :
    (Correctness.computeMask answer guess).length = 5 := by
  simp [Correctness.computeMask, Correctness.pass2_length, Correctness.pass1_length, ha, hg]

/-- C3: the three duplicate-letter examples of the spec hold for
`Correctness::compute` exactly as stated. -/
theorem compute_duplicate_examples :
    Correctness.compute ['a', 'a', 'b', 'b', 'b'] ['a', 'a', 'c', 'c', 'c']
        = some [Correctness.Correct, Correctness.Correct,
                Correctness.Wrong, Correctness.Wrong, Correctness.Wrong] ∧
    Correctness.compute ['a', 'a', 'b', 'b', 'b'] ['c', 'c', 'a', 'a', 'c']
        = some [Correctness.Wrong, Correctness.Wrong,
                Correctness.Misplaced, Correctness.Misplaced, Correctness.Wrong] ∧
    Correctness.compute ['x', 'x', 'y', 'y', 'y'] ['z', 'x', 'x', 'z', 'z']
        = some [Correctness.Wrong, Correctness.Correct,
                Correctness.Misplaced, Correctness.Wrong, Correctness.Wrong] :=
  ⟨rfl, rfl, rfl⟩

/-- C4: `Correctness::compute` hits its precondition asserts exactly when an
input is not 5 characters long, and on two 5-character inputs it returns a
5-element mask. -/
theorem compute_length_precondition (answer guess : List Char) :
    (Correctness.compute answer guess = none ↔ ¬(answer.length = 5 ∧ guess.length = 5)) ∧
    (answer.length = 5 → guess.length = 5 →
      Correctness.compute answer guess = some (Correctness.computeMask answer guess) ∧
      (Correctness.computeMask answer guess).length = 5) := by
  constructor
  · constructor
    · intro hnone hlen
      simp [Correctness.compute, hlen] at hnone
    · intro hlen
      simp [Correctness.compute, hlen]
  · intro ha hg
    exact ⟨by simp [Correctness.compute, ha, hg],
      Correctness.computeMask_length answer guess ha hg⟩

theorem compute_length_precondition_wit :
    Correctness.compute ['a', 'b', 'c', 'd', 'e'] ['a', 'b', 'c', 'd', 'e']
        = some (Correctness.computeMask ['a', 'b', 'c', 'd', 'e'] ['a', 'b', 'c', 'd', 'e']) ∧
    (Correctness.computeMask ['a', 'b', 'c', 'd', 'e'] ['a', 'b', 'c', 'd', 'e']).length = 5 :=
  (compute_length_precondition ['a', 'b', 'c', 'd', 'e'] ['a', 'b', 'c', 'd', 'e']).2 rfl rfl

/-- C8: `Correctness::compute` is deterministic: on identical 5-character
inputs it returns identical masks; the result is a function of the two
inputs alone (the embedding takes nothing else as input). -/
theorem compute_deterministic (answer guess answer2 guess2 : List Char)
    (ha : answer.length = 5) (hg : guess.length = 5)
    (h1 : answer2 = answer) (h2 : guess2 = guess) :
    Correctness.compute answer2 guess2 = Correctness.compute answer guess ∧
    (Correctness.compute answer guess).isSome := by
  subst h1; subst h2
  exact ⟨rfl, by simp [Correctness.compute, ha, hg]⟩

theorem compute_deterministic_wit :
    Correctness.compute wordRight wordWrong = Correctness.compute wordRight wordWrong ∧
    (Correctness.compute wordRight wordWrong).isSome :=
  compute_deterministic wordRight wordWrong wordRight wordWrong rfl rfl rfl rfl

/-! ## Pass behaviour on special inputs -/

theorem Correctness.pass1_self : ∀ as : List Char,
    Correctness.pass1 as as = List.replicate as.length Correctness.Correct
  | [] => rfl
  | a :: as => by
    have ih := Correctness.pass1_self as
    simp only [Correctness.pass1] at ih ⊢
    simp [ih, List.replicate_succ]

theorem Correctness.pass2_all_correct :
    ∀ (gs : List Char) (cs : List Correctness) (au : List (Char × Bool)),
      gs.length = cs.length → (∀ x ∈ cs, x = Correctness.Correct) →
      Correctness.pass2 gs cs au = cs
  | [], [], _, _, _ => rfl
  | [], _ :: _, _, hlen, _ => by simp at hlen
  | _ :: _, [], _, hlen, _ => by simp at hlen
  | g :: gs, c :: cs, au, hlen, hall => by
    have hc : c = Correctness.Correct := hall c (by simp)
    subst hc
    have ih := Correctness.pass2_all_correct gs cs au (by simpa using hlen)
      (fun x hx => hall x (by simp [hx]))
    simp [Correctness.pass2, ih]

theorem Correctness.consume_eq_none (g : Char) :
    ∀ au : List (Char × Bool), (∀ p ∈ au, p.1 ≠ g) → Correctness.consume g au = none
  | [], _ => rfl
  | (a, u) :: rest, hall => by
    have ha : a ≠ g := hall (a, u) (by simp)
    simp [Correctness.consume, ha,
      Correctness.consume_eq_none g rest (fun p hp => hall p (by simp [hp]))]

theorem Correctness.pass1_all_wrong :
    ∀ as gs : List Char, (∀ p ∈ as.zip gs, p.1 ≠ p.2) →
      Correctness.pass1 as gs = List.replicate (min as.length gs.length) Correctness.Wrong
  | [], gs, _ => by simp [Correctness.pass1]
  | _ :: _, [], _ => by simp [Correctness.pass1]
  | a :: as, g :: gs, hall => by
    have hag : a ≠ g := hall (a, g) (by simp)
    have ih := Correctness.pass1_all_wrong as gs (fun p hp => hall p (by simp [hp]))
    simp only [Correctness.pass1] at ih ⊢
    simp [ih, hag, Nat.succ_min_succ, List.replicate_succ]

theorem Correctness.pass2_all_wrong :
    ∀ (gs : List Char) (cs : List Correctness) (au : List (Char × Bool)),
      gs.length = cs.length → (∀ x ∈ cs, x = Correctness.Wrong) →
      (∀ g ∈ gs, Correctness.consume g au = none) →
      Correctness.pass2 gs cs au = List.replicate gs.length Correctness.Wrong
  | [], [], _, _, _, _ => rfl
  | [], _ :: _, _, hlen, _, _ => by simp at hlen
  | _ :: _, [], _, hlen, _, _ => by simp at hlen
  | g :: gs, c :: cs, au, hlen, hall, hnone => by
    have hc : c = Correctness.Wrong := hall c (by simp)
    subst hc
    have ih := Correctness.pass2_all_wrong gs cs au (by simpa using hlen)
      (fun x hx => hall x (by simp [hx]))
      (fun x hx => hnone x (by simp [hx]))
    simp [Correctness.pass2, hnone g (by simp), ih, List.replicate_succ]

/-- C7: on 5-character inputs, `compute(w, w)` marks every position
`Correct`, and when the answer and the guess share no characters `compute`
marks every position `Wrong`. -/
theorem compute_identity_disjoint :
    (∀ w : List Char, w.length = 5 →
      Correctness.compute w w = some (List.replicate 5 Correctness.Correct)) ∧
    (∀ answer guess : List Char, answer.length = 5 → guess.length = 5 →
      (∀ ch, ch ∈ answer → ch ∉ guess) →
      Correctness.compute answer guess = some (List.replicate 5 Correctness.Wrong)) := by
  constructor
  · intro w hw
    have h1 := Correctness.pass1_self w
    have h2 := Correctness.pass2_all_correct w (Correctness.pass1 w w)
      (w.zip (Correctness.usedOf (Correctness.pass1 w w)))
      (by simp [Correctness.pass1_length])
      (by intro x hx; rw [h1] at hx; exact List.eq_of_mem_replicate hx)
    simp only [Correctness.compute, Correctness.computeMask, hw, and_self, if_pos]
    rw [h2, h1, hw]
  · intro answer guess ha hg hdisj
    have hzip : ∀ p ∈ answer.zip guess, p.1 ≠ p.2 := by
      intro p hp he
      have hm := List.of_mem_zip hp
      exact hdisj p.1 hm.1 (he ▸ hm.2)
    have h1 := Correctness.pass1_all_wrong answer guess hzip
    have hnone : ∀ g ∈ guess,
        Correctness.consume g (answer.zip (Correctness.usedOf (Correctness.pass1 answer guess)))
          = none := by
      intro g hgm
      apply Correctness.consume_eq_none
      intro p hp he
      have hm := List.of_mem_zip hp
      exact hdisj p.1 hm.1 (he ▸ hgm)
    have h2 := Correctness.pass2_all_wrong guess (Correctness.pass1 answer guess)
      (answer.zip (Correctness.usedOf (Correctness.pass1 answer guess)))
      (by simp [Correctness.pass1_length, ha, hg]) 
      (by intro x hx; rw [h1] at hx; exact List.eq_of_mem_replicate hx) hnone
    simp only [Correctness.compute, Correctness.computeMask, ha, hg, and_self, if_pos]
    rw [h2, hg]

theorem compute_identity_disjoint_wit :
    Correctness.compute ['a', 'b', 'c', 'd', 'e'] ['a', 'b', 'c', 'd', 'e']
        = some (List.replicate 5 Correctness.Correct) ∧
    Correctness.compute ['a', 'b', 'c', 'd', 'e'] ['f', 'g', 'h', 'i', 'j']
        = some (List.replicate 5 Correctness.Wrong) :=
  ⟨compute_identity_disjoint.1 ['a', 'b', 'c', 'd', 'e'] rfl,
   compute_identity_disjoint.2 ['a', 'b', 'c', 'd', 'e'] ['f', 'g', 'h', 'i', 'j'] rfl rfl
     (by decide)⟩

/-! ## Consumption of unconsumed answer positions -/

theorem Correctness.consume_of_mem_unconsumed (g : Char) :
    ∀ au : List (Char × Bool), g ∈ Correctness.unconsumed au →
      ∃ au2, Correctness.consume g au = some au2 ∧
        Correctness.unconsumed au2 = (Correctness.unconsumed au).erase g := by
  intro au
  induction au with
  | nil => intro hmem; simp [Correctness.unconsumed] at hmem
  | cons p rest ih =>
    obtain ⟨a, u⟩ := p
    intro hmem
    cases u with
    | false =>
      by_cases hag : a = g
      · subst hag
        refine ⟨(a, true) :: rest, by simp [Correctness.consume], ?_⟩
        simp [Correctness.unconsumed, List.filter_cons]
      · have hmem2 : g ∈ Correctness.unconsumed rest := by
          simp [Correctness.unconsumed, List.filter_cons] at hmem
          rcases hmem with h | h
          · exact absurd h.symm hag
          · simpa [Correctness.unconsumed] using h
        obtain ⟨au2, hcons, hunc⟩ := ih hmem2
        refine ⟨(a, false) :: au2, ?_, ?_⟩
        · simp [Correctness.consume, hag, hcons]
        · simp [Correctness.unconsumed, List.filter_cons] at hunc ⊢
          rw [List.erase_cons_tail]
          · simpa [Correctness.unconsumed] using hunc
          · simpa using hag
    | true =>
      have hmem2 : g ∈ Correctness.unconsumed rest := by
        simpa [Correctness.unconsumed, List.filter_cons] using hmem
      obtain ⟨au2, hcons, hunc⟩ := ih hmem2
      refine ⟨(a, true) :: au2, ?_, ?_⟩
      · simp [Correctness.consume, hcons]
      · simp [Correctness.unconsumed, List.filter_cons] at hunc ⊢
        simpa [Correctness.unconsumed] using hunc

theorem Correctness.pass2_all_misplaced :
    ∀ (gs : List Char) (cs : List Correctness) (au : List (Char × Bool)),
      gs.length = cs.length → (∀ x ∈ cs, x = Correctness.Wrong) →
      gs.Nodup → (∀ g ∈ gs, g ∈ Correctness.unconsumed au) →
      Correctness.pass2 gs cs au = List.replicate gs.length Correctness.Misplaced
  | [], [], _, _, _, _, _ => rfl
  | [], _ :: _, _, hlen, _, _, _ => by simp at hlen
  | _ :: _, [], _, hlen, _, _, _ => by simp at hlen
  | g :: gs, c :: cs, au, hlen, hall, hnd, hmem => by
    have hc : c = Correctness.Wrong := hall c (by simp)
    subst hc
    obtain ⟨au2, hcons, hunc⟩ :=
      Correctness.consume_of_mem_unconsumed g au (hmem g (by simp))
    have hgnotin : g ∉ gs := (List.nodup_cons.mp hnd).1
    have hmem2 : ∀ x ∈ gs, x ∈ Correctness.unconsumed au2 := by
      intro x hx
      rw [hunc]
      have hxg : x ≠ g := by
        intro he
        rw [he] at hx
        exact hgnotin hx
      exact (List.mem_erase_of_ne hxg).mpr (hmem x (by simp [hx]))
    have ih := Correctness.pass2_all_misplaced gs cs au2 (by simpa using hlen)
      (fun x hx => hall x (by simp [hx])) (List.nodup_cons.mp hnd).2 hmem2
    simp [Correctness.pass2, hcons, ih, List.replicate_succ]

theorem Correctness.usedOf_replicate_wrong (n : Nat) :
    Correctness.usedOf (List.replicate n Correctness.Wrong) = List.replicate n false := by
  simp [Correctness.usedOf, List.map_replicate]

theorem Correctness.unconsumed_zip_false :
    ∀ as : List Char, Correctness.unconsumed (as.zip (List.replicate as.length false)) = as
  | [] => rfl
  | a :: as => by
    simp [List.replicate_succ, Correctness.unconsumed, List.filter_cons] at *
    simpa [Correctness.unconsumed] using Correctness.unconsumed_zip_false as

/-- C6: a 5-character guess that is a duplicate-free permutation of the
answer and differs from it at every position is marked `Misplaced` at every
position by `Correctness::compute`. -/
theorem compute_permutation_all_misplaced (answer guess : List Char)
    (ha : answer.length = 5) (hperm : guess.Perm answer) (hnd : answer.Nodup)
    (hdiff : ∀ p ∈ answer.zip guess, p.1 ≠ p.2) :
    Correctness.compute answer guess = some (List.replicate 5 Correctness.Misplaced) := by
  have hg : guess.length = 5 := by rw [hperm.length_eq, ha]
  have h1 : Correctness.pass1 answer guess = List.replicate 5 Correctness.Wrong := by
    simpa [ha, hg] using Correctness.pass1_all_wrong answer guess hdiff
  have hset : ∀ g ∈ guess,
      g ∈ Correctness.unconsumed
        (answer.zip (Correctness.usedOf (Correctness.pass1 answer guess))) := by
    intro g hgm
    rw [h1, Correctness.usedOf_replicate_wrong, ← ha, Correctness.unconsumed_zip_false]
    exact hperm.mem_iff.mp hgm
  have hgnd : guess.Nodup := hperm.nodup_iff.mpr hnd
  have h2 := Correctness.pass2_all_misplaced guess (Correctness.pass1 answer guess)
    (answer.zip (Correctness.usedOf (Correctness.pass1 answer guess)))
    (by simp [Correctness.pass1_length, ha, hg])
    (by intro x hx; rw [h1] at hx; exact List.eq_of_mem_replicate hx)
    hgnd hset
  simp only [Correctness.compute, Correctness.computeMask, ha, hg, and_self, if_pos]
  rw [h2, hg]

theorem compute_permutation_all_misplaced_wit :
    Correctness.compute ['a', 'b', 'c', 'd', 'e'] ['e', 'c', 'd', 'b', 'a']
        = some (List.replicate 5 Correctness.Misplaced) :=
  compute_permutation_all_misplaced ['a', 'b', 'c', 'd', 'e'] ['e', 'c', 'd', 'b', 'a']
    rfl (by decide) (by decide) (by decide)

/-! ## Counting consumed answer positions -/

theorem Correctness.freeCount_cons (ch a : Char) (u : Bool) (rest : List (Char × Bool)) :
    Correctness.freeCount ch ((a, u) :: rest)
      = (if a = ch ∧ u = false then 1 else 0) + Correctness.freeCount ch rest := by
  cases u <;> by_cases h1 : a = ch <;>
    simp [Correctness.freeCount, List.filter_cons, h1, Nat.add_comm]

theorem Correctness.cmCount_cons (ch g : Char) (gs : List Char) (m : Correctness)
    (ms : List Correctness) :
    Correctness.cmCount ch (g :: gs) (m :: ms)
      = (if g = ch ∧ (m = Correctness.Correct ∨ m = Correctness.Misplaced) then 1 else 0)
        + Correctness.cmCount ch gs ms := by
  by_cases h1 : g = ch <;> cases m <;>
    simp [Correctness.cmCount, List.filter_cons, h1, Nat.add_comm]

theorem Correctness.baseCount_cons (ch g : Char) (gs : List Char) (m : Correctness)
    (ms : List Correctness) :
    Correctness.baseCount ch (g :: gs) (m :: ms)
      = (if g = ch ∧ m = Correctness.Correct then 1 else 0) + Correctness.baseCount ch gs ms := by
  by_cases h1 : g = ch <;> cases m <;>
    simp [Correctness.baseCount, List.filter_cons, h1, Nat.add_comm]

theorem Correctness.consume_freeCount (g : Char) :
    ∀ au au2 : List (Char × Bool), Correctness.consume g au = some au2 →
      Correctness.freeCount g au = Correctness.freeCount g au2 + 1 ∧
      ∀ ch, ch ≠ g → Correctness.freeCount ch au2 = Correctness.freeCount ch au
  | [], au2, hcons => by simp [Correctness.consume] at hcons
  | (a, u) :: rest, au2, hcons => by
    by_cases hcond : a = g ∧ u = false
    · rw [Correctness.consume, if_pos hcond] at hcons
      obtain ⟨hag, hu⟩ := hcond
      subst hag; subst hu
      cases hcons
      constructor
      · simp [Correctness.freeCount_cons]
        omega
      · intro ch hch
        have : ¬(a = ch) := fun he => hch he.symm
        simp [Correctness.freeCount_cons, this]
    · rw [Correctness.consume, if_neg hcond] at hcons
      cases hrec : Correctness.consume g rest with
      | none => rw [hrec] at hcons; simp at hcons
      | some r2 =>
        rw [hrec] at hcons
        simp at hcons
        obtain ⟨hfree, hother⟩ := Correctness.consume_freeCount g rest r2 hrec
        subst hcons
        constructor
        · simp [Correctness.freeCount_cons, hfree]
          omega
        · intro ch hch
          simp [Correctness.freeCount_cons, hother ch hch]

theorem Correctness.pass2_cmCount (ch : Char) :
    ∀ (gs : List Char) (cs : List Correctness) (au : List (Char × Bool)),
      Correctness.cmCount ch gs (Correctness.pass2 gs cs au)
        ≤ Correctness.baseCount ch gs cs + Correctness.freeCount ch au
  | [], cs, au => by simp [Correctness.pass2, Correctness.cmCount]
  | g :: gs, [], au => by simp [Correctness.pass2, Correctness.cmCount]
  | g :: gs, c :: cs, au => by
    simp only [Correctness.pass2]
    by_cases hc : c = Correctness.Correct
    · subst hc
      rw [if_pos rfl, Correctness.cmCount_cons, Correctness.baseCount_cons]
      have ih := Correctness.pass2_cmCount ch gs cs au
      by_cases hg : g = ch <;> simp [hg] <;> omega
    · rw [if_neg hc]
      cases hcons : Correctness.consume g au with
      | none =>
        rw [Correctness.cmCount_cons, Correctness.baseCount_cons]
        have ih := Correctness.pass2_cmCount ch gs cs au
        by_cases hg : g = ch <;> simp [hg] <;> omega
      | some au2 =>
        rw [Correctness.cmCount_cons, Correctness.baseCount_cons]
        have ih := Correctness.pass2_cmCount ch gs cs au2
        obtain ⟨hfree, hother⟩ := Correctness.consume_freeCount g au au2 hcons
        by_cases hg : g = ch
        · subst hg
          rw [if_pos ⟨rfl, Or.inr rfl⟩]
          omega
        · have hchg : ch ≠ g := fun he => hg he.symm
          have := hother ch hchg
          simp [hg]
          omega

theorem Correctness.base_plus_free (ch : Char) :
    ∀ answer guess : List Char, answer.length = guess.length →
      Correctness.baseCount ch guess (Correctness.pass1 answer guess)
        + Correctness.freeCount ch
            (answer.zip (Correctness.usedOf (Correctness.pass1 answer guess)))
        = answer.count ch
  | [], [], _ => rfl
  | [], _ :: _, h => by simp at h
  | _ :: _, [], h => by simp at h
  | a :: as, g :: gs, h => by
    have ih := Correctness.base_plus_free ch as gs (by simpa using h)
    by_cases hag : a = g
    · subst hag
      by_cases hach : a = ch <;>
        simp [Correctness.pass1, Correctness.usedOf, Correctness.baseCount_cons,
          Correctness.freeCount_cons, List.count_cons, beq_iff_eq, hach] at ih ⊢ <;>
        omega
    · by_cases hach : a = ch
      · by_cases hgch : g = ch
        · exact absurd (hach.trans hgch.symm) hag
        · have h2 : ¬(ch = g) := fun he => hgch he.symm
          simp [Correctness.pass1, Correctness.usedOf, Correctness.baseCount_cons,
            Correctness.freeCount_cons, List.count_cons, beq_iff_eq, hag, hach, hgch, h2]
            at ih ⊢
          omega
      · by_cases hgch : g = ch
        · have h1 : ¬(ch = a) := fun he => hach he.symm
          simp [Correctness.pass1, Correctness.usedOf, Correctness.baseCount_cons,
            Correctness.freeCount_cons, List.count_cons, beq_iff_eq, hag, hach, hgch, h1]
            at ih ⊢
          omega
        · have h1 : ¬(ch = a) := fun he => hach he.symm
          have h2 : ¬(ch = g) := fun he => hgch he.symm
          simp [Correctness.pass1, Correctness.usedOf, Correctness.baseCount_cons,
            Correctness.freeCount_cons, List.count_cons, beq_iff_eq, hag, hach, hgch, h1, h2]
            at ih ⊢
          omega

/-- C9: in any mask `Correctness::compute` returns, the number of guess
positions holding a character `ch` that are marked `Correct` or `Misplaced`
never exceeds the number of occurrences of `ch` in the answer. -/
theorem compute_consumption_bound (answer guess : List Char) (ch : Char)
    (m : List Correctness) (hm : Correctness.compute answer guess = some m) :
    Correctness.cmCount ch guess m ≤ answer.count ch := by
  have hlen : answer.length = 5 ∧ guess.length = 5 := by
    by_contra hno
    simp [Correctness.compute, hno] at hm
  have hmask : m = Correctness.computeMask answer guess := by
    have hok : Correctness.compute answer guess
        = some (Correctness.computeMask answer guess) := by
      simp [Correctness.compute, hlen]
    rw [hok] at hm
    exact (Option.some_inj.mp hm).symm
  subst hmask
  have h1 := Correctness.pass2_cmCount ch guess (Correctness.pass1 answer guess)
    (answer.zip (Correctness.usedOf (Correctness.pass1 answer guess)))
  have h2 := Correctness.base_plus_free ch answer guess (by omega)
  calc Correctness.cmCount ch guess (Correctness.computeMask answer guess)
      ≤ Correctness.baseCount ch guess (Correctness.pass1 answer guess)
        + Correctness.freeCount ch
            (answer.zip (Correctness.usedOf (Correctness.pass1 answer guess))) := h1
    _ = answer.count ch := h2

theorem compute_consumption_bound_wit :
    Correctness.cmCount 'a' ['c', 'c', 'a', 'a', 'c']
        (Correctness.computeMask ['a', 'a', 'b', 'b', 'b'] ['c', 'c', 'a', 'a', 'c'])
      ≤ List.count 'a' ['a', 'a', 'b', 'b', 'b'] :=
  compute_consumption_bound ['a', 'a', 'b', 'b', 'b'] ['c', 'c', 'a', 'a', 'c'] 'a'
    (Correctness.computeMask ['a', 'a', 'b', 'b', 'b'] ['c', 'c', 'a', 'a', 'c']) rfl

/-! ## Game loop -/

/-- C1 (amended): in any round that is reached, a candidate guess that
differs from the answer and is absent from the dictionary makes play fail
fast with the dictionary panic, but a candidate equal to the answer wins
immediately and is never checked against the dictionary. -/
theorem play_dict_check_order {σ : Type} (step : σ → List Guess → List Char × σ)
    (dict : List (List Char)) (answer : List Char) (fuel i : Nat) (s : σ) (h : List Guess) :
    ((step s h).1 ≠ answer → (step s h).1 ∉ dict →
      (playLoop dict answer step (fuel + 1) i s h).result
        = Except.error (PlayErr.notInDict (step s h).1)) ∧
    ((step s h).1 = answer →
      (playLoop dict answer step (fuel + 1) i s h).result = Except.ok (some (i + 1))) := by
  constructor
  · intro hne hnd
    simp [playLoop, hne, hnd]
  · intro heq
    simp [playLoop, heq]

theorem play_dict_check_order_wit :
    (playLoop [] wordRight (solverConst wordZ) 6 0 () []).result
        = Except.error (PlayErr.notInDict wordZ) ∧
    (playLoop [] wordRight (solverConst wordRight) 6 0 () []).result = Except.ok (some 1) :=
  ⟨(play_dict_check_order (solverConst wordZ) [] wordRight 5 0 () []).1
      (by decide) (by decide),
   (play_dict_check_order (solverConst wordRight) [] wordRight 5 0 () []).2 rfl⟩

/-- C1 counterexample: a solver whose candidate (the answer itself) is not a
member of the supplied dictionary, yet play succeeds with round 1 instead of
failing: the dictionary check is skipped for a winning candidate. -/
theorem play_dict_check_order_cex :
    wordRight ∉ ([] : List (List Char)) ∧
    Wordle.play ⟨[]⟩ wordRight (solverConst wordRight) () = Except.ok (some 1) :=
  ⟨by decide, rfl⟩

/-- C10: from any loop state whose history is well-formed, the final history
of `Wordle::play` is well-formed — every entry's mask is exactly
`Correctness::compute` of its word, no entry's word equals the answer — and
the starting history is preserved as a prefix (entries are only appended,
never removed or modified, in production order). -/
theorem play_history_wf {σ : Type} (step : σ → List Guess → List Char × σ)
    (dict : List (List Char)) (answer : List Char) :
    ∀ (fuel i : Nat) (s : σ) (h : List Guess), HistWF answer h →
      HistWF answer (playLoop dict answer step fuel i s h).hist ∧
      AppendOnly h (playLoop dict answer step fuel i s h).hist
  | 0, i, s, h, hwf => ⟨by simpa [playLoop] using hwf, ⟨[], by simp [playLoop]⟩⟩
  | fuel + 1, i, s, h, hwf => by
    by_cases hga : (step s h).1 = answer
    · exact ⟨by simpa [playLoop, hga] using hwf, ⟨[], by simp [playLoop, hga]⟩⟩
    · by_cases hmem : (step s h).1 ∈ dict
      · cases hc : Correctness.compute answer (step s h).1 with
        | some mask =>
          have hwf2 : HistWF answer (h ++ [⟨(step s h).1, mask⟩]) := by
            intro e he
            rcases List.mem_append.mp he with h1 | h1
            · exact hwf e h1
            · rw [List.mem_singleton.mp h1]
              exact ⟨hc, hga⟩
          have ih := play_history_wf step dict answer fuel (i + 1) (step s h).2
            (h ++ [⟨(step s h).1, mask⟩]) hwf2
          have hh : (playLoop dict answer step (fuel + 1) i s h).hist
              = (playLoop dict answer step fuel (i + 1) (step s h).2
                  (h ++ [⟨(step s h).1, mask⟩])).hist := by
            simp [playLoop, hga, hmem, hc]
          constructor
          · rw [hh]; exact ih.1
          · obtain ⟨t, ht⟩ := ih.2
            exact ⟨⟨(step s h).1, mask⟩ :: t, by rw [hh, ht]; simp⟩
        | none =>
          exact ⟨by simpa [playLoop, hga, hmem, hc] using hwf,
            ⟨[], by simp [playLoop, hga, hmem, hc]⟩⟩
      · exact ⟨by simpa [playLoop, hga, hmem] using hwf,
          ⟨[], by simp [playLoop, hga, hmem]⟩⟩

theorem play_history_wf_wit :
    HistWF wordRight (playLoop [wordWrong] wordRight (solverConst wordWrong) 6 0 () []).hist ∧
    AppendOnly [] (playLoop [wordWrong] wordRight (solverConst wordWrong) 6 0 () []).hist :=
  play_history_wf (solverConst wordWrong) [wordWrong] wordRight 6 0 () []
    (fun e he => absurd he (List.not_mem_nil e))

theorem playTrace_hist_length {σ : Type} (answer : List Char)
    (step : σ → List Guess → List Char × σ) (s0 : σ) :
    ∀ j, (playTrace answer step s0 j).2.length = j
  | 0 => rfl
  | j + 1 => by simp [playTrace, playTrace_hist_length answer step s0 j]

theorem playLoop_trace_shift {σ : Type} (step : σ → List Guess → List Char × σ) (s0 : σ)
    (dict : List (List Char)) (answer : List Char) (ha : answer.length = 5) :
    ∀ j, j ≤ 6 →
      (∀ m, m < j →
        (step (playTrace answer step s0 m).1 (playTrace answer step s0 m).2).1 ≠ answer ∧
        (step (playTrace answer step s0 m).1 (playTrace answer step s0 m).2).1 ∈ dict ∧
        (step (playTrace answer step s0 m).1 (playTrace answer step s0 m).2).1.length = 5) →
      (playLoop dict answer step 6 0 s0 []).result
          = (playLoop dict answer step (6 - j) j (playTrace answer step s0 j).1
              (playTrace answer step s0 j).2).result ∧
      (playLoop dict answer step 6 0 s0 []).hist
          = (playLoop dict answer step (6 - j) j (playTrace answer step s0 j).1
              (playTrace answer step s0 j).2).hist ∧
      (playLoop dict answer step 6 0 s0 []).calls
          = (playLoop dict answer step (6 - j) j (playTrace answer step s0 j).1
              (playTrace answer step s0 j).2).calls + j
  | 0, _, _ => by simp [playTrace]
  | j + 1, hj, hyp => by
    have hj6 : j ≤ 6 := Nat.le_of_succ_le hj
    obtain ⟨hres, hhist, hcalls⟩ :=
      playLoop_trace_shift step s0 dict answer ha j hj6
        (fun m hm => hyp m (Nat.lt_succ_of_lt hm))
    obtain ⟨hne, hmem, hlen⟩ := hyp j (Nat.lt_succ_self j)
    have hfuel : 6 - j = (6 - (j + 1)) + 1 := by omega
    have htr : playTrace answer step s0 (j + 1)
        = ((step (playTrace answer step s0 j).1 (playTrace answer step s0 j).2).2,
           (playTrace answer step s0 j).2
             ++ [⟨(step (playTrace answer step s0 j).1 (playTrace answer step s0 j).2).1,
                  Correctness.computeMask answer
                    (step (playTrace answer step s0 j).1
                      (playTrace answer step s0 j).2).1⟩]) := by
      simp [playTrace]
    have hcomp : Correctness.compute answer
        (step (playTrace answer step s0 j).1 (playTrace answer step s0 j).2).1
        = some (Correctness.computeMask answer
            (step (playTrace answer step s0 j).1 (playTrace answer step s0 j).2).1) := by
      simp [Correctness.compute, ha, hlen]
    have hun : playLoop dict answer step (6 - j) j (playTrace answer step s0 j).1
        (playTrace answer step s0 j).2
        = ⟨(playLoop dict answer step (6 - (j + 1)) (j + 1)
              (playTrace answer step s0 (j + 1)).1 (playTrace answer step s0 (j + 1)).2).result,
           (playLoop dict answer step (6 - (j + 1)) (j + 1)
              (playTrace answer step s0 (j + 1)).1 (playTrace answer step s0 (j + 1)).2).hist,
           (playLoop dict answer step (6 - (j + 1)) (j + 1)
              (playTrace answer step s0 (j + 1)).1 (playTrace answer step s0 (j + 1)).2).calls
             + 1⟩ := by
      rw [hfuel]
      simp [playLoop, hne, hmem, hcomp, htr]
    refine ⟨?_, ?_, ?_⟩
    · rw [hres, hun]
    · rw [hhist, hun]
    · rw [hcalls, hun]
      dsimp only
      omega

/-- C2 (amended): a solver whose k-th invocation (1 ≤ k ≤ 6) returns the
answer, and whose k−1 earlier invocations return words that differ from the
answer and are legal (5-character members of the dictionary), wins with
`Some k`; the history passed at the k-th invocation has exactly k−1 entries
(the answer must be 5 characters for the earlier rounds' mask computation
to pass). -/
theorem play_wins_round_k {σ : Type} (step : σ → List Guess → List Char × σ) (s0 : σ)
    (dict : List (List Char)) (answer : List Char) (k : Nat)
    (hk1 : 1 ≤ k) (hk6 : k ≤ 6) (ha : answer.length = 5)
    (hprev : ∀ m, m < k - 1 →
      (step (playTrace answer step s0 m).1 (playTrace answer step s0 m).2).1 ≠ answer ∧
      (step (playTrace answer step s0 m).1 (playTrace answer step s0 m).2).1 ∈ dict ∧
      (step (playTrace answer step s0 m).1 (playTrace answer step s0 m).2).1.length = 5)
    (hwin : (step (playTrace answer step s0 (k - 1)).1
        (playTrace answer step s0 (k - 1)).2).1 = answer) :
    Wordle.play ⟨dict⟩ answer step s0 = Except.ok (some k) ∧
    (playTrace answer step s0 (k - 1)).2.length = k - 1 := by
  obtain ⟨hres, hhist, hcalls⟩ :=
    playLoop_trace_shift step s0 dict answer ha (k - 1) (by omega) hprev
  constructor
  · show (playLoop dict answer step 6 0 s0 []).result = Except.ok (some k)
    have hfuel : 6 - (k - 1) = (6 - k) + 1 := by omega
    rw [hres, hfuel]
    simp [playLoop, hwin, Nat.sub_add_cancel hk1]
  · exact playTrace_hist_length answer step s0 (k - 1)

theorem play_wins_round_k_wit :
    Wordle.play ⟨[wordWrong]⟩ wordRight (solverSecond wordWrong wordRight) ()
        = Except.ok (some 2) ∧
    (playTrace wordRight (solverSecond wordWrong wordRight) () 1).2.length = 1 :=
  play_wins_round_k (solverSecond wordWrong wordRight) () [wordWrong] wordRight 2
    (by decide) (by decide) rfl (by decide) (by decide)

/-- C2 counterexample: a solver whose first invocation returns a word that
differs from the answer but is not in the dictionary, and whose second
invocation returns the answer; play panics on the illegal first guess
instead of returning `Some 2`. -/
theorem play_wins_round_k_cex :
    (solverSecond wordZ wordRight () []).1 ≠ wordRight ∧
    (solverSecond wordZ wordRight ()
        (playTrace wordRight (solverSecond wordZ wordRight) () 1).2).1 = wordRight ∧
    Wordle.play ⟨[wordWrong]⟩ wordRight (solverSecond wordZ wordRight) ()
        = Except.error (PlayErr.notInDict wordZ) :=
  ⟨by decide, by decide, rfl⟩

theorem playLoop_agree {σ : Type} (dict : List (List Char)) (answer : List Char)
    (step step2 : σ → List Guess → List Char × σ) :
    ∀ (fuel i : Nat) (s : σ) (h : List Guess),
      (∀ (s2 : σ) (h2 : List Guess), h2.length < h.length + fuel → step2 s2 h2 = step s2 h2) →
      playLoop dict answer step2 fuel i s h = playLoop dict answer step fuel i s h
  | 0, _, _, _, _ => rfl
  | fuel + 1, i, s, h, hagree => by
    have hstep : step2 s h = step s h := hagree s h (by omega)
    have ih : ∀ (s2 : σ) (e : Guess),
        playLoop dict answer step2 fuel (i + 1) s2 (h ++ [e])
          = playLoop dict answer step fuel (i + 1) s2 (h ++ [e]) := by
      intro s2 e
      apply playLoop_agree dict answer step step2 fuel (i + 1) s2 (h ++ [e])
      intro s3 h3 hl
      apply hagree s3 h3
      simp only [List.length_append, List.length_cons, List.length_nil] at hl
      omega
    by_cases hga : (step s h).1 = answer
    · simp [playLoop, hstep, hga]
    · by_cases hmem : (step s h).1 ∈ dict
      · cases hc : Correctness.compute answer (step s h).1 with
        | some mask => simp [playLoop, hstep, hga, hmem, hc, ih]
        | none => simp [playLoop, hstep, hga, hmem, hc]
      · simp [playLoop, hstep, hga, hmem]

/-- C5 (amended): (1) a solver whose first 6 invocations all return legal
(in-dictionary, 5-character) words that differ from the 5-character answer
makes play return `None`, with exactly 6 history entries and exactly 6
solver invocations; (2) unconditionally, no 7th invocation can occur: any
two solvers agreeing on every history shorter than 6 entries make play
behave identically. -/
theorem play_budget_exhausted :
    (∀ (σ : Type) (step : σ → List Guess → List Char × σ) (s0 : σ)
        (dict : List (List Char)) (answer : List Char),
      answer.length = 5 →
      (∀ m, m < 6 →
        (step (playTrace answer step s0 m).1 (playTrace answer step s0 m).2).1 ≠ answer ∧
        (step (playTrace answer step s0 m).1 (playTrace answer step s0 m).2).1 ∈ dict ∧
        (step (playTrace answer step s0 m).1 (playTrace answer step s0 m).2).1.length = 5) →
      (playLoop dict answer step 6 0 s0 []).result = Except.ok none ∧
      (playLoop dict answer step 6 0 s0 []).hist.length = 6 ∧
      (playLoop dict answer step 6 0 s0 []).calls = 6) ∧
    (∀ (σ : Type) (step step2 : σ → List Guess → List Char × σ) (s0 : σ)
        (dict : List (List Char)) (answer : List Char),
      (∀ (s2 : σ) (h2 : List Guess), h2.length < 6 → step2 s2 h2 = step s2 h2) →
      Wordle.play ⟨dict⟩ answer step2 s0 = Wordle.play ⟨dict⟩ answer step s0) := by
  constructor
  · intro σ step s0 dict answer ha hall
    obtain ⟨hres, hhist, hcalls⟩ :=
      playLoop_trace_shift step s0 dict answer ha 6 (Nat.le_refl 6) hall
    refine ⟨?_, ?_, ?_⟩
    · rw [hres]
      rfl
    · rw [hhist]
      show (playTrace answer step s0 6).2.length = 6
      exact playTrace_hist_length answer step s0 6
    · rw [hcalls]
      rfl
  · intro σ step step2 s0 dict answer hagree
    show (playLoop dict answer step2 6 0 s0 []).result
        = (playLoop dict answer step 6 0 s0 []).result
    rw [playLoop_agree dict answer step step2 6 0 s0 []
      (fun s2 h2 hl => hagree s2 h2 (by simpa using hl))]

theorem play_budget_exhausted_wit :
    (playLoop [wordWrong] wordRight (solverConst wordWrong) 6 0 () []).result
        = Except.ok none ∧
    (playLoop [wordWrong] wordRight (solverConst wordWrong) 6 0 () []).hist.length = 6 ∧
    (playLoop [wordWrong] wordRight (solverConst wordWrong) 6 0 () []).calls = 6 ∧
    Wordle.play ⟨[wordWrong]⟩ wordRight (solverCapped wordWrong) ()
        = Wordle.play ⟨[wordWrong]⟩ wordRight (solverConst wordWrong) () := by
  have h1 := play_budget_exhausted.1 Unit (solverConst wordWrong) () [wordWrong] wordRight
    rfl (by decide)
  have h2 := play_budget_exhausted.2 Unit (solverConst wordWrong) (solverCapped wordWrong) ()
    [wordWrong] wordRight (fun s2 h2 hl => by simp [solverCapped, solverConst, hl])
  exact ⟨h1.1, h1.2.1, h1.2.2, h2⟩

/-- C5 counterexample: the constant solver guessing "zzzzz" never guesses
the answer, yet play does not return `None`: it panics on the dictionary
check in round 1, having made 1 solver invocation and pushed 0 history
entries. -/
theorem play_budget_exhausted_cex :
    (solverConst wordZ () []).1 ≠ wordRight ∧
    Wordle.play ⟨[wordWrong]⟩ wordRight (solverConst wordZ) ()
        = Except.error (PlayErr.notInDict wordZ) ∧
    (playLoop [wordWrong] wordRight (solverConst wordZ) 6 0 () []).hist.length = 0 ∧
    (playLoop [wordWrong] wordRight (solverConst wordZ) 6 0 () []).calls = 1 :=
  ⟨by decide, rfl, rfl, rfl⟩
